import Mathlib

/-!
Verification of the meeting-assistant pipeline (transcribe / summarize /
index / retrieve / answer).

Strings are embedded as `List Char`.  Pure Python functions from the
repository (`qa._format_context`, `qa.answer_question_with_mistral`,
`summarization.summarize_meeting_with_mistral`, `gradio_app.process_audio`,
`gradio_app.answer_question_ui`) are translated directly.  The external
Mistral completion service is a function parameter `complete`; each embedded
operation returns, next to its result, the ordered list of completion-call
payloads it issued, so that "no service call" and call-count properties are
expressible.  The text splitter and the vector index are library code that is
not part of this repository; they are modelled from the spec (see the
`Modelled from the spec:` doc comments below).
-/

abbrev Chars := List Char

def chars (s : String) : Chars := s.toList

/-- Python whitespace characters recognised by `str.strip()`. -/
def wsChar (c : Char) : Bool :=
  c = ' ' || c = '\t' || c = '\n' || c = '\r' || c = '\x0b' || c = '\x0c'

/-- Python `str.strip()`: drop whitespace from both ends. -/
def pyStrip (t : Chars) : Chars :=
  ((t.dropWhile wsChar).reverse.dropWhile wsChar).reverse

/-! ## qa.py : `_format_context` and `answer_question_with_mistral` -/

/-- One formatted context entry: `f"- {text}\n"`. -/
def formatDoc (t : Chars) : Chars := '-' :: ' ' :: (t ++ ['\n'])

/-- The loop body of `_format_context`: walks the retrieved documents
keeping `current_len`, skips documents whose stripped text is empty,
stops (`break`) at the first formatted chunk that would overflow
`max_chars`, and otherwise collects whole formatted chunks. -/
def formatContextGo (maxChars : Nat) : List Chars → Nat → List Chars
  | [], _ => []
  | d :: ds, curLen =>
    let t := pyStrip d
    if t = [] then formatContextGo maxChars ds curLen
    else
      let c := formatDoc t
      if maxChars < curLen + c.length then []
      else c :: formatContextGo maxChars ds (curLen + c.length)

/-- Sentinel returned by `_format_context` when no part survives. -/
def noContextMsg : Chars :=
  chars "No relevant context was found in the transcript."

/-- `qa._format_context(docs, max_chars)`. -/
def format_context (docs : List Chars) (maxChars : Nat) : Chars :=
  let parts := formatContextGo maxChars docs 0
  if parts = [] then noContextMsg else parts.flatten

/-- Fixed message when retrieval returns zero chunks. -/
def noRelevantMsg : Chars :=
  chars "I couldn't find anything in the transcript related to that question."

/-- The user-message content built by `answer_question_with_mistral`. -/
def qaUserPrompt (contextText question : Chars) : Chars :=
  chars "Here is context from the meeting transcript:\n\n" ++ contextText ++
    chars "\n\nUsing ONLY this context, answer the following question:\n\nQuestion: " ++
    question

/-- `qa.answer_question_with_mistral(question, retriever, max_context_chars)`.
`retrieve` stands for `retriever.invoke`; `complete` for the Mistral chat
completion.  Returns the answer together with the list of completion-call
payloads issued. -/
def answer_question_with_mistral (complete : Chars → Chars)
    (retrieve : Chars → List Chars) (question : Chars)
    (maxContextChars : Nat) : Chars × List Chars :=
  let docs := retrieve question
  if docs = [] then (noRelevantMsg, [])
  else
    let contextText := format_context docs maxContextChars
    let p := qaUserPrompt contextText question
    (complete p, [p])

/-! ## The chunker

`vector_store._split_transcript_to_documents` and `summarization._split_text`
both delegate the actual splitting to LangChain's
`RecursiveCharacterTextSplitter(chunk_size, chunk_overlap,
separators=["\n\n", "\n", ". ", " "])`, library code that is not part of this
repository.  The splitting algorithm is therefore modelled from the spec
(section 4.1): split on a priority-ordered separator list, preferring the
largest unit that keeps pieces within `chunk_size`; keep a piece whole when
no separator can make it small enough; pack pieces into chunks carrying up
to `chunk_overlap` characters of trailing text over to the next chunk.

Chunks are represented by half-open index spans `(start, stop)` into the
original text, which makes order and overlap facts positional. -/

abbrev Span := Nat × Nat

/-- `isSepAt sep text i`: the separator occurs in `text` at index `i`. -/
def isSepAt (sep text : Chars) (i : Nat) : Bool :=
  sep.isPrefixOf (text.drop i)

/-- First index `j ≥ i` with `j + sep.length ≤ e` where `sep` occurs
(`fuel`-bounded scan; `fuel ≥ e - i` suffices). -/
def findSepFrom (sep text : Chars) (e : Nat) : Nat → Nat → Option Nat
  | _, 0 => none
  | i, fuel + 1 =>
    if i + sep.length ≤ e then
      if isSepAt sep text i then some i
      else findSepFrom sep text e (i + 1) fuel
    else none

/-- Modelled from the spec: split the span `[s, e)` at every occurrence of
one separator, each piece keeping its trailing separator (spec 4.1: "split
on a priority-ordered list of separators"). -/
def splitSpanGo (sep text : Chars) (e : Nat) : Nat → Nat → List Span
  | _, 0 => []
  | s, fuel + 1 =>
    if s < e then
      match findSepFrom sep text e s (e - s) with
      | some i => (s, i + sep.length) :: splitSpanGo sep text e (i + sep.length) fuel
      | none => [(s, e)]
    else []

def splitSpan (sep text : Chars) (s e : Nat) : List Span :=
  splitSpanGo sep text e s (e - s)

/-- Apply one separator to every span still longer than `size`. -/
def splitStep (sep text : Chars) (size : Nat) : List Span → List Span
  | [] => []
  | (a, b) :: rest =>
    (if b - a ≤ size then [(a, b)] else splitSpan sep text a b) ++
      splitStep sep text size rest

/-- Modelled from the spec: refine spans through the separator priority
list; spans that are small enough are kept, larger ones are split with the
next separator, and a span no separator can reduce is kept whole
(spec 4.1: "falls back to splitting within a unit only when no separator
yields a small-enough piece"). -/
def splitAll (text : Chars) (size : Nat) : List Chars → List Span → List Span
  | [], spans => spans
  | sep :: more, spans => splitAll text size more (splitStep sep text size spans)

/-- The separator priority list of the repository's splitters:
paragraph break, line break, sentence end, space. -/
def separators : List Chars := [['\n', '\n'], ['\n'], ['.', ' '], [' ']]

/-- Modelled from the spec: greedily pack contiguous units into chunks of at
most `size` characters, starting each new chunk up to `overlap` characters
before the end of the previous one (spec 4.1: "adjacent chunks overlap by up
to chunk_overlap characters of trailing/leading text").  The state
`(cs, ce)` is the chunk currently being grown. -/
def packGo (size overlap : Nat) : List Span → Nat → Nat → List Span
  | [], cs, ce => [(cs, ce)]
  | (_, b) :: rest, cs, ce =>
    if b - cs ≤ size then packGo size overlap rest cs b
    else
      let o := min (min overlap (size - (b - ce))) (ce - cs)
      (cs, ce) :: packGo size overlap rest (ce - o) b

def pack (size overlap : Nat) : List Span → List Span
  | [] => []
  | (a, b) :: rest => packGo size overlap rest a b

/-- The text of a span. -/
def extractSpan (text : Chars) (sp : Span) : Chars :=
  (text.drop sp.1).take (sp.2 - sp.1)

/-- Modelled from the spec: the chunker
`chunk(text, chunk_size, chunk_overlap)` of spec 4.1, standing in for
LangChain's `RecursiveCharacterTextSplitter` (not in this repository).
Empty input gives no chunks; input within `chunk_size` gives one trimmed
chunk; longer input is split along the separator priority list and packed
with overlap. -/
def chunkTexts (text : Chars) (size overlap : Nat) : List Chars :=
  if text.length = 0 then []
  else if text.length ≤ size then [pyStrip text]
  else
    (pack size overlap (splitAll text size separators [(0, text.length)])).map
      (extractSpan text)

/-- `summarization._split_text(text, chunk_size, chunk_overlap)` (the
splitter itself is modelled from the spec, see `chunkTexts`). -/
def split_text (text : Chars) (size overlap : Nat) : List Chars :=
  chunkTexts text size overlap

/-! ## The vector index

`vector_store.build_vector_store_from_transcript` / `build_retriever` hand
the chunks to FAISS and OpenAI embeddings, library code that is not part of
this repository.  The index and its top-k query are therefore modelled from
the spec (sections 4.3 and 9): a list of (chunk, vector) pairs in original
chunk order, brute-force inner-product scoring, and top-k selection by
descending score with ties broken by original chunk position. -/

/-- Inner product of two integer vectors (spec 4.3: "cosine or
inner-product over normalized vectors — pick one"; inner product). -/
def dot : List Int → List Int → Int
  | [], _ => 0
  | _, [] => 0
  | a :: as, b :: bs => a * b + dot as bs

/-- Modelled from the spec: `build(chunks, embedder)` of spec 4.3 (the FAISS
store is not in this repository): embed every chunk, keeping original
order. -/
def buildIndex (embed : Chars → List Int) (chunks : List Chars) :
    List (Chars × List Int) :=
  chunks.map (fun c => (c, embed c))

/-- Each stored chunk with its original position and its score against a
query vector. -/
def rankedList (idx : List (Chars × List Int)) (qv : List Int) :
    List (Nat × Int × Chars) :=
  idx.enum.map (fun p => (p.1, dot qv p.2.2, p.2.1))

/-- Retrieval ranking order: higher score first, ties by original chunk
position (earlier chunk wins). -/
def rankRel : Nat × Int × Chars → Nat × Int × Chars → Prop :=
  fun a b => b.2.1 < a.2.1 ∨ (a.2.1 = b.2.1 ∧ a.1 ≤ b.1)

instance : DecidableRel rankRel := fun a b => by
  unfold rankRel; infer_instance

instance : IsTotal (Nat × Int × Chars) rankRel :=
  ⟨fun a b => by unfold rankRel; omega⟩

instance : IsTrans (Nat × Int × Chars) rankRel :=
  ⟨fun a b c hab hbc => by unfold rankRel at *; omega⟩

/-- Modelled from the spec: `query(index, query_text, k)` of spec 4.3 (the
FAISS similarity search is not in this repository): embed the query with the
build-time embedder, score every stored vector, and return the `k`
best-ranked chunks. -/
def query (embed : Chars → List Int) (idx : List (Chars × List Int))
    (queryText : Chars) (k : Nat) : List Chars :=
  ((List.insertionSort rankRel (rankedList idx (embed queryText))).take k).map
    (fun t => t.2.2)

/-! ## summarization.py -/

/-- Fixed message for an empty (stripped) transcript. -/
def noTranscriptMsg : Chars := chars "No transcript content provided to summarize."

/-- The user-message content of `_call_mistral_summary`. -/
def summaryUserPrompt (content : Chars) : Chars :=
  chars "Here is a meeting transcript (or part of it). Please summarize it in the following structure:\n\n1. Overview (2–3 sentences)\n2. Key decisions (bullet points)\n3. Action items (bullet points, include owner and due date if mentioned)\n\nTranscript:\n"
    ++ content

/-- The label prefix `f"Chunk {idx} summary:\n"` of a partial summary. -/
def chunkLabel (idx : Nat) : Chars :=
  chars "Chunk " ++ chars (toString idx) ++ chars " summary:\n"

/-- The final merge instruction of the chunked branch. -/
def mergeInstr : Chars :=
  chars "You have been given summaries of different parts of a long meeting. Please combine them into ONE overall meeting summary with the same structured format:\n\n1. Overview (2–3 sentences)\n2. Key decisions (bullet points)\n3. Action items (bullet points)\n\nHere are the partial summaries:\n\n"

/-- `summarization.summarize_meeting_with_mistral(transcript,
max_direct_chars)`.  `complete` is the Mistral completion service applied to
the user-message content; the second component is the ordered list of
completion-call payloads issued (`_call_mistral_summary` issues exactly one
call per invocation). -/
def summarize_meeting_with_mistral (complete : Chars → Chars)
    (transcript : Chars) (maxDirectChars : Nat) : Chars × List Chars :=
  let t := pyStrip transcript
  if t = [] then (noTranscriptMsg, [])
  else if t.length ≤ maxDirectChars then
    (complete (summaryUserPrompt t), [summaryUserPrompt t])
  else
    let chunks := split_text t maxDirectChars 300
    let partials := chunks.map (fun c => complete (summaryUserPrompt c))
    let labeled := partials.enum.map (fun p => chunkLabel (p.1 + 1) ++ p.2)
    let combined := List.intercalate (chars "\n\n") labeled
    let finalPrompt := mergeInstr ++ combined
    (complete finalPrompt, chunks.map summaryUserPrompt ++ [finalPrompt])

/-! ## gradio_app.py -/

def noAudioMsg : Chars := chars "No audio file uploaded yet."

def transcriptionErrMsg (e : Chars) : Chars :=
  chars "Error during transcription: " ++ e

def summarizationErrMsg (e : Chars) : Chars :=
  chars "Error during summarization: " ++ e

def buildErrMsg (e : Chars) : Chars :=
  chars "Error while building vector store / retriever: " ++ e

def truncMarker : Chars := chars "\n\n...[truncated]"

/-- `gradio_app.process_audio(audio_path)`.  The three pipeline stages are
function parameters returning `Except` (an `Except.error` is a raised Python
exception caught by the corresponding `try`/`except`).  `ρ` is the type of
the built retriever.  Returns (transcript preview, summary markdown,
retriever state). -/
def process_audio {ρ : Type} (transcribeFn : Chars → Except Chars Chars)
    (summarizeFn : Chars → Except Chars Chars)
    (buildRetrieverFn : Chars → Except Chars ρ)
    (audioPath : Option Chars) : Chars × Chars × Option ρ :=
  match audioPath with
  | none => (noAudioMsg, [], none)
  | some p =>
    if p = [] then (noAudioMsg, [], none)
    else
      match transcribeFn p with
      | Except.error e => (transcriptionErrMsg e, [], none)
      | Except.ok transcript =>
        let summary :=
          match summarizeFn transcript with
          | Except.ok s => s
          | Except.error e => summarizationErrMsg e
        match buildRetrieverFn transcript with
        | Except.error e => (transcript.take 1500, buildErrMsg e, none)
        | Except.ok r =>
          let preview :=
            transcript.take 1500 ++
              (if 1500 < transcript.length then truncMarker else [])
          (preview, summary, some r)

def noIndexMsg : Chars :=
  chars "Please run **Transcribe & Summarize** first so I can build the meeting memory."

def emptyQuestionMsg : Chars := chars "Please enter a question about the meeting."

/-- `gradio_app.answer_question_ui(question, retriever)`; the retriever
state is `none` before any meeting has been processed.  Returns the answer
together with the completion-call payloads issued. -/
def answer_question_ui (complete : Chars → Chars)
    (retriever : Option (Chars → List Chars)) (question : Chars) :
    Chars × List Chars :=
  match retriever with
  | none => (noIndexMsg, [])
  | some retrieve =>
    if pyStrip question = [] then (emptyQuestionMsg, [])
    else answer_question_with_mistral complete retrieve question 4000

/-! ## Span predicates used to state chunker properties -/

/-- `Contig e s spans`: the spans tile `[s, e)` contiguously, each span
nonempty. -/
def Contig (e : Nat) : Nat → List Span → Prop
  | s, [] => s = e
  | s, (a, b) :: rest => a = s ∧ s < b ∧ Contig e b rest

/-- Every occurrence of `sep` inside the span ends exactly at the span's
end: the span cannot be divided further by `sep`. -/
def SepEndOnly (text sep : Chars) (sp : Span) : Prop :=
  ∀ j, sp.1 ≤ j → j + sep.length ≤ sp.2 → isSepAt sep text j = true →
    j + sep.length = sp.2

/-- Every oversized span among `spans` is indivisible by every separator in
`procSeps`. -/
def GoodSpans (text : Chars) (size : Nat) (procSeps : List Chars)
    (spans : List Span) : Prop :=
  ∀ sp ∈ spans, size < sp.2 - sp.1 → ∀ sep ∈ procSeps, SepEndOnly text sep sp

/-- Chunk order and overlap bound: starts and ends are monotone and
consecutive chunks share at most `overlap` positions of the original
text. -/
def chunkOrd (overlap : Nat) (a b : Span) : Prop :=
  a.1 ≤ b.1 ∧ a.2 ≤ b.2 ∧ a.2 ≤ b.1 + overlap

/-! ## Claims C5, C6, C7, C9, C10 -/

/-- C5: if retrieval returns zero chunks, `answer_question_with_mistral`
returns the fixed "nothing relevant found" message and issues no
completion-service call. -/
theorem claim_C5_no_docs_no_call (complete : Chars → Chars)
    (retrieve : Chars → List Chars) (question : Chars) (maxContextChars : Nat)
    (h : retrieve question = []) :
    answer_question_with_mistral complete retrieve question maxContextChars =
      (noRelevantMsg, []) := by
  simp [answer_question_with_mistral, h]

theorem claim_C5_no_docs_no_call_witness :
    ((fun (_ : Chars) => ([] : List Chars)) (chars "what was decided?") = []) ∧
      answer_question_with_mistral (fun _ => []) (fun _ => [])
        (chars "what was decided?") 4000 = (noRelevantMsg, []) :=
  ⟨rfl, claim_C5_no_docs_no_call (fun _ => []) (fun _ => [])
    (chars "what was decided?") 4000 rfl⟩

/-- C6: `answer_question_ui` returns a fixed guidance message (with no
completion call) when no retriever exists yet, and a fixed guidance message
when the question is empty or whitespace-only. -/
theorem claim_C6_ui_guards (complete : Chars → Chars) (question : Chars) :
    answer_question_ui complete none question = (noIndexMsg, []) ∧
      ∀ retrieve : Chars → List Chars, pyStrip question = [] →
        answer_question_ui complete (some retrieve) question =
          (emptyQuestionMsg, []) := by
  refine ⟨rfl, fun retrieve h => ?_⟩
  simp [answer_question_ui, h]

theorem claim_C6_ui_guards_witness :
    (answer_question_ui (fun _ => []) none (chars "anything") =
        (noIndexMsg, [])) ∧
      pyStrip (chars "  ") = [] ∧
      answer_question_ui (fun _ => []) (some fun _ => []) (chars "  ") =
        (emptyQuestionMsg, []) :=
  ⟨(claim_C6_ui_guards (fun _ => []) (chars "anything")).1, by decide,
    (claim_C6_ui_guards (fun _ => []) (chars "  ")).2 (fun _ => []) (by decide)⟩

/-- C7: an empty or whitespace-only transcript makes
`summarize_meeting_with_mistral` return the fixed "nothing to summarize"
message without any completion-service call. -/
theorem claim_C7_empty_transcript (complete : Chars → Chars)
    (transcript : Chars) (maxDirectChars : Nat)
    (h : pyStrip transcript = []) :
    summarize_meeting_with_mistral complete transcript maxDirectChars =
      (noTranscriptMsg, []) := by
  simp [summarize_meeting_with_mistral, h]

theorem claim_C7_empty_transcript_witness :
    pyStrip (chars " \t\n ") = [] ∧
      summarize_meeting_with_mistral (fun _ => []) (chars " \t\n ") 5000 =
        (noTranscriptMsg, []) :=
  ⟨by decide,
    claim_C7_empty_transcript (fun _ => []) (chars " \t\n ") 5000 (by decide)⟩

/-- C9: when summarization fails inside `process_audio`, the error is
converted to a readable error string returned in place of the summary while
the retriever is still built and returned, so question answering stays
available. -/
theorem claim_C9_summary_failure_nonfatal {ρ : Type}
    (transcribeFn : Chars → Except Chars Chars)
    (summarizeFn : Chars → Except Chars Chars)
    (buildRetrieverFn : Chars → Except Chars ρ) (p t e : Chars) (r : ρ)
    (h0 : p ≠ []) (h1 : transcribeFn p = Except.ok t)
    (h2 : summarizeFn t = Except.error e)
    (h3 : buildRetrieverFn t = Except.ok r) :
    process_audio transcribeFn summarizeFn buildRetrieverFn (some p) =
      (t.take 1500 ++ (if 1500 < t.length then truncMarker else []),
        summarizationErrMsg e, some r) := by
  simp [process_audio, h0, h1, h2, h3]

theorem claim_C9_summary_failure_nonfatal_witness :
    (chars "a.mp3" ≠ []) ∧
      process_audio (fun _ => Except.ok (chars "hello"))
          (fun _ => Except.error (chars "boom"))
          (fun _ => Except.ok ()) (some (chars "a.mp3")) =
        ((chars "hello").take 1500 ++
            (if 1500 < (chars "hello").length then truncMarker else []),
          summarizationErrMsg (chars "boom"), some ()) :=
  ⟨by decide,
    claim_C9_summary_failure_nonfatal (fun _ => Except.ok (chars "hello"))
      (fun _ => Except.error (chars "boom")) (fun _ => Except.ok ())
      (chars "a.mp3") (chars "hello") (chars "boom") () (by decide) rfl rfl rfl⟩

/-- C10: the transcript preview of `process_audio` is the first 1500
characters of the transcript; on success the truncation marker is appended
exactly when the transcript is longer than 1500 characters, and on an index
build failure the same first-1500-characters preview is returned without
the marker. -/
theorem claim_C10_preview {ρ : Type}
    (transcribeFn : Chars → Except Chars Chars)
    (summarizeFn : Chars → Except Chars Chars)
    (buildRetrieverFn : Chars → Except Chars ρ) (p t : Chars)
    (h0 : p ≠ []) (h1 : transcribeFn p = Except.ok t) :
    (∀ e, buildRetrieverFn t = Except.error e →
        (process_audio transcribeFn summarizeFn buildRetrieverFn (some p)).1 =
          t.take 1500) ∧
      ∀ r : ρ, buildRetrieverFn t = Except.ok r →
        (process_audio transcribeFn summarizeFn buildRetrieverFn (some p)).1 =
          t.take 1500 ++ (if 1500 < t.length then truncMarker else []) := by
  constructor
  · intro e he
    simp [process_audio, h0, h1, he]
  · intro r hr
    simp [process_audio, h0, h1, hr]

theorem claim_C10_preview_witness :
    (chars "a.mp3" ≠ []) ∧
      (process_audio (fun _ => Except.ok (chars "hi"))
            (fun _ => Except.ok (chars "s"))
            (fun _ => (Except.error (chars "down") : Except Chars Unit))
            (some (chars "a.mp3"))).1 =
        (chars "hi").take 1500 ∧
      (process_audio (fun _ => Except.ok (chars "hi"))
            (fun _ => Except.ok (chars "s"))
            (fun _ => Except.ok ()) (some (chars "a.mp3"))).1 =
        (chars "hi").take 1500 ++
          (if 1500 < (chars "hi").length then truncMarker else []) :=
  ⟨by decide,
    (claim_C10_preview (fun _ => Except.ok (chars "hi"))
        (fun _ => Except.ok (chars "s"))
        (fun _ => (Except.error (chars "down") : Except Chars Unit))
        (chars "a.mp3") (chars "hi") (by decide) rfl).1 (chars "down") rfl,
    (claim_C10_preview (fun _ => Except.ok (chars "hi"))
        (fun _ => Except.ok (chars "s")) (fun _ => Except.ok ())
        (chars "a.mp3") (chars "hi") (by decide) rfl).2 () rfl⟩

/-! ## Claims C2 and C8: the context assembler -/

/-- The parts collected by `_format_context` are an initial segment of the
formatted nonempty-stripped documents, in the given order. -/
theorem formatContextGo_take (maxChars : Nat) :
    ∀ (docs : List Chars) (curLen : Nat), ∃ j,
      formatContextGo maxChars docs curLen =
        (((docs.map pyStrip).filter fun t => !t.isEmpty).map formatDoc).take j
  | [], _ => ⟨0, rfl⟩
  | d :: ds, curLen => by
    by_cases he : pyStrip d = []
    · obtain ⟨j, hj⟩ := formatContextGo_take maxChars ds curLen
      exact ⟨j, by simp [formatContextGo, he, hj]⟩
    · by_cases hov : maxChars < curLen + (formatDoc (pyStrip d)).length
      · refine ⟨0, ?_⟩
        simp [formatContextGo, he, hov]
      · obtain ⟨j, hj⟩ :=
          formatContextGo_take maxChars ds (curLen + (formatDoc (pyStrip d)).length)
        refine ⟨j + 1, ?_⟩
        simp only [formatContextGo, he, if_neg, hov, if_false, hj]
        simp [he, List.isEmpty_iff]

/-- Whenever `_format_context` collected at least one part, the total
length of the collected parts fits the budget. -/
theorem formatContextGo_length_le (maxChars : Nat) :
    ∀ (docs : List Chars) (curLen : Nat),
      formatContextGo maxChars docs curLen ≠ [] →
      curLen + (formatContextGo maxChars docs curLen).flatten.length ≤ maxChars
  | [], _, h => absurd rfl h
  | d :: ds, curLen, h => by
    by_cases he : pyStrip d = []
    · have := formatContextGo_length_le maxChars ds curLen
      simp only [formatContextGo, he, if_pos] at h ⊢
      exact this h
    · by_cases hov : maxChars < curLen + (formatDoc (pyStrip d)).length
      · simp [formatContextGo, he, hov] at h
      · simp only [formatContextGo, he, if_neg, hov, if_false] at h ⊢
        by_cases hrest :
            formatContextGo maxChars ds (curLen + (formatDoc (pyStrip d)).length) = []
        · simp [hrest]
          omega
        · have := formatContextGo_length_le maxChars ds
            (curLen + (formatDoc (pyStrip d)).length) hrest
          simp only [List.flatten_cons, List.length_append]
          omega

/-- C2: `_format_context` returns only whole formatted chunks in the given
order (an initial segment of the surviving chunks, never cut mid-text), and
whenever at least one chunk is included, the returned string is their
concatenation and fits `max_chars`. -/
theorem claim_C2_context_budget (docs : List Chars) (maxChars : Nat) :
    (∃ j, formatContextGo maxChars docs 0 =
        (((docs.map pyStrip).filter fun t => !t.isEmpty).map formatDoc).take j) ∧
      (formatContextGo maxChars docs 0 ≠ [] →
        format_context docs maxChars = (formatContextGo maxChars docs 0).flatten ∧
          (format_context docs maxChars).length ≤ maxChars) := by
  refine ⟨formatContextGo_take maxChars docs 0, fun h => ?_⟩
  have hlen := formatContextGo_length_le maxChars docs 0 h
  have hres : format_context docs maxChars = (formatContextGo maxChars docs 0).flatten := by
    simp [format_context, h]
  exact ⟨hres, by rw [hres]; omega⟩

theorem claim_C2_context_budget_witness :
    formatContextGo 30 [chars "hello", chars "  ", chars "world"] 0 ≠ [] ∧
      format_context [chars "hello", chars "  ", chars "world"] 30 =
        (formatContextGo 30 [chars "hello", chars "  ", chars "world"] 0).flatten ∧
      (format_context [chars "hello", chars "  ", chars "world"] 30).length ≤ 30 :=
  ⟨by decide,
    (claim_C2_context_budget [chars "hello", chars "  ", chars "world"] 30).2
      (by decide)⟩

/-- `_format_context` collects nothing starting from budget 0 exactly when
every document strips to empty, or the first document with nonempty
stripped text already formats past `max_chars`. -/
theorem formatContextGo_zero_eq_nil_iff (maxChars : Nat) :
    ∀ docs : List Chars, formatContextGo maxChars docs 0 = [] ↔
      ((∀ d ∈ docs, pyStrip d = []) ∨
        ∃ pre d post, docs = pre ++ d :: post ∧ (∀ x ∈ pre, pyStrip x = []) ∧
          pyStrip d ≠ [] ∧ maxChars < (formatDoc (pyStrip d)).length)
  | [] => by
    simp only [formatContextGo, List.not_mem_nil, false_implies, implies_true,
      true_iff, true_or]
  | d :: ds => by
    by_cases he : pyStrip d = []
    · rw [show formatContextGo maxChars (d :: ds) 0 = formatContextGo maxChars ds 0 by
        simp [formatContextGo, he]]
      rw [formatContextGo_zero_eq_nil_iff maxChars ds]
      constructor
      · rintro (hall | ⟨pre, e, post, hds, hpre, hne, hov⟩)
        · exact Or.inl (by
            intro x hx
            rcases List.mem_cons.mp hx with hx | hx
            · exact hx ▸ he
            · exact hall x hx)
        · exact Or.inr ⟨d :: pre, e, post, by rw [hds, List.cons_append], by
            intro x hx
            rcases List.mem_cons.mp hx with hx | hx
            · exact hx ▸ he
            · exact hpre x hx, hne, hov⟩
      · rintro (hall | ⟨pre, e, post, hds, hpre, hne, hov⟩)
        · exact Or.inl fun x hx => hall x (List.mem_cons_of_mem d hx)
        · match pre, hds with
          | [], hds =>
            rw [List.nil_append] at hds
            cases hds
            exact absurd he hne
          | p :: pre', hds =>
            rw [List.cons_append] at hds
            injection hds with hd hds'
            exact Or.inr ⟨pre', e, post, hds', fun x hx =>
              hpre x (List.mem_cons_of_mem p hx), hne, hov⟩
    · by_cases hov : maxChars < (formatDoc (pyStrip d)).length
      · rw [show formatContextGo maxChars (d :: ds) 0 = [] by
          simp [formatContextGo, he, hov]]
        simp only [true_iff]
        exact Or.inr ⟨[], d, ds, rfl, by simp, he, hov⟩
      · rw [show formatContextGo maxChars (d :: ds) 0 =
            formatDoc (pyStrip d) ::
              formatContextGo maxChars ds (0 + (formatDoc (pyStrip d)).length) by
          simp [formatContextGo, he, hov]]
        simp only [List.cons_ne_nil, false_iff]
        rintro (hall | ⟨pre, e, post, hds, hpre, hne, hov'⟩)
        · exact he (hall d (List.mem_cons_self _ _))
        · match pre, hds with
          | [], hds =>
            rw [List.nil_append] at hds
            cases hds
            omega
          | p :: pre', hds =>
            rw [List.cons_append] at hds
            injection hds with hd hds'
            exact he (hd ▸ hpre p (List.mem_cons_self _ _))

/-- C8 (amended): `_format_context` returns the fixed sentinel exactly when
no chunk is included: every chunk strips to empty, or the first chunk with
nonempty stripped text already formats to more than `max_chars`
characters. -/
theorem claim_C8_sentinel_iff (docs : List Chars) (maxChars : Nat) :
    format_context docs maxChars = noContextMsg ↔
      ((∀ d ∈ docs, pyStrip d = []) ∨
        ∃ pre d post, docs = pre ++ d :: post ∧ (∀ x ∈ pre, pyStrip x = []) ∧
          pyStrip d ≠ [] ∧ maxChars < (formatDoc (pyStrip d)).length) := by
  rw [← formatContextGo_zero_eq_nil_iff]
  constructor
  · intro h
    by_contra hne
    obtain ⟨j, hj⟩ := formatContextGo_take maxChars docs 0
    rw [show format_context docs maxChars = (formatContextGo maxChars docs 0).flatten by
      simp [format_context, hne]] at h
    match hparts : formatContextGo maxChars docs 0, hj with
    | [], _ => exact hne hparts
    | c :: rest, hj =>
      rw [hparts] at h
      have hc : c ∈ (((docs.map pyStrip).filter fun t => !t.isEmpty).map formatDoc) := by
        have : c ∈ c :: rest := List.mem_cons_self _ _
        rw [hj] at this
        exact List.mem_of_mem_take this
      obtain ⟨t, _, ht⟩ := List.mem_map.mp hc
      have hhead := congrArg List.head? h
      rw [← ht] at hhead
      simp only [formatDoc, List.flatten_cons, List.cons_append, List.head?_cons] at hhead
      have : noContextMsg.head? = some 'N' := by rfl
      rw [this] at hhead
      simp at hhead
  · intro h
    simp [format_context, h]

theorem claim_C8_counterexample :
    format_context [chars "x"] 2 = noContextMsg ∧ pyStrip (chars "x") ≠ [] := by
  exact ⟨by rfl, by decide⟩

/-! ## Claim C3: summarizer branch selection and call counts -/

/-- Direct branch: a nonempty stripped transcript within the threshold is
summarized with exactly one completion call. -/
theorem summarize_direct_calls (complete : Chars → Chars) (transcript : Chars)
    (maxDirectChars : Nat) (h1 : pyStrip transcript ≠ [])
    (h2 : (pyStrip transcript).length ≤ maxDirectChars) :
    summarize_meeting_with_mistral complete transcript maxDirectChars =
      (complete (summaryUserPrompt (pyStrip transcript)),
        [summaryUserPrompt (pyStrip transcript)]) := by
  simp [summarize_meeting_with_mistral, h1, h2]

/-- Chunked branch: a stripped transcript above the threshold issues one
completion call per chunk, in chunk order, then one final merge call. -/
theorem summarize_chunked_calls (complete : Chars → Chars) (transcript : Chars)
    (maxDirectChars : Nat) (h2 : maxDirectChars < (pyStrip transcript).length) :
    (summarize_meeting_with_mistral complete transcript maxDirectChars).2 =
      (split_text (pyStrip transcript) maxDirectChars 300).map summaryUserPrompt ++
        [mergeInstr ++ List.intercalate (chars "\n\n")
          ((((split_text (pyStrip transcript) maxDirectChars 300).map
              (fun c => complete (summaryUserPrompt c))).enum).map
            (fun p => chunkLabel (p.1 + 1) ++ p.2))] := by
  have h1 : pyStrip transcript ≠ [] := by
    intro h
    rw [h] at h2
    simp at h2
  have h3 : ¬(pyStrip transcript).length ≤ maxDirectChars := by omega
  simp [summarize_meeting_with_mistral, h1, h3]

/-- C3 (amended): with `t` the whitespace-stripped transcript, if `t` is
nonempty and `t.length ≤ max_direct_chars` the summarizer issues exactly one
completion call; if `t.length` exceeds the threshold it splits `t` with
`chunk_size = max_direct_chars` and `overlap = 300` and issues exactly one
completion call per chunk in chunk order followed by exactly one final merge
call. -/
theorem claim_C3_branch_calls (complete : Chars → Chars) (transcript : Chars)
    (maxDirectChars : Nat) :
    (pyStrip transcript ≠ [] → (pyStrip transcript).length ≤ maxDirectChars →
        (summarize_meeting_with_mistral complete transcript maxDirectChars).2 =
          [summaryUserPrompt (pyStrip transcript)]) ∧
      (maxDirectChars < (pyStrip transcript).length →
        (summarize_meeting_with_mistral complete transcript maxDirectChars).2 =
          (split_text (pyStrip transcript) maxDirectChars 300).map
              summaryUserPrompt ++
            [mergeInstr ++ List.intercalate (chars "\n\n")
              ((((split_text (pyStrip transcript) maxDirectChars 300).map
                  (fun c => complete (summaryUserPrompt c))).enum).map
                (fun p => chunkLabel (p.1 + 1) ++ p.2))]) := by
  constructor
  · intro h1 h2
    rw [summarize_direct_calls complete transcript maxDirectChars h1 h2]
  · intro h2
    exact summarize_chunked_calls complete transcript maxDirectChars h2

theorem claim_C3_branch_calls_witness :
    (pyStrip (chars "hello") ≠ [] ∧ (pyStrip (chars "hello")).length ≤ 10 ∧
        (summarize_meeting_with_mistral (fun _ => []) (chars "hello") 10).2 =
          [summaryUserPrompt (pyStrip (chars "hello"))]) ∧
      (1 < (pyStrip (chars "abc")).length ∧
        (summarize_meeting_with_mistral (fun _ => []) (chars "abc") 1).2 =
          (split_text (pyStrip (chars "abc")) 1 300).map summaryUserPrompt ++
            [mergeInstr ++ List.intercalate (chars "\n\n")
              ((((split_text (pyStrip (chars "abc")) 1 300).map
                  (fun c => (fun _ => ([] : Chars)) (summaryUserPrompt c))).enum).map
                (fun p => chunkLabel (p.1 + 1) ++ p.2))]) :=
  ⟨⟨by decide, by decide,
      (claim_C3_branch_calls (fun _ => []) (chars "hello") 10).1 (by decide)
        (by decide)⟩,
    ⟨by decide,
      (claim_C3_branch_calls (fun _ => []) (chars "abc") 1).2 (by decide)⟩⟩

/-- Dropping leading whitespace-only padding: `dropWhile` skips a run of
spaces. -/
theorem dropWhile_ws_replicate_space :
    ∀ (n : Nat) (l : Chars),
      List.dropWhile wsChar (List.replicate n ' ' ++ l) = List.dropWhile wsChar l
  | 0, l => by simp
  | n + 1, l => by
    rw [List.replicate_succ, List.cons_append, List.dropWhile_cons]
    simp only [show wsChar ' ' = true by rfl, if_true]
    exact dropWhile_ws_replicate_space n l

/-- C3 counterexample: the transcript of 5000 spaces followed by `'a'` has
raw length 5001, above the default threshold 5000, yet the summarizer
issues exactly one completion call (it compares the stripped length 1, not
the raw length, against the threshold), while the claim predicts one call
per chunk plus a final merge call, hence at least two. -/
theorem claim_C3_counterexample :
    (List.replicate 5000 ' ' ++ ['a'] : Chars).length = 5001 ∧ 5000 < 5001 ∧
      (summarize_meeting_with_mistral (fun _ => [])
          (List.replicate 5000 ' ' ++ ['a']) 5000).2.length = 1 := by
  have hstrip : pyStrip (List.replicate 5000 ' ' ++ ['a']) = ['a'] := by
    rw [pyStrip, dropWhile_ws_replicate_space]
    rfl
  refine ⟨?_, by omega, ?_⟩
  · rw [List.length_append, List.length_replicate, List.length_singleton]
  · rw [summarize_direct_calls (fun _ => []) (List.replicate 5000 ' ' ++ ['a']) 5000
      (by rw [hstrip]; simp) (by rw [hstrip]; simp)]
    rfl

/-! ## Claim C4: chunker properties -/

/-- A successful scan returns the first occurrence at or after `i`. -/
theorem findSepFrom_some (sep text : Chars) (e : Nat) :
    ∀ fuel i j, findSepFrom sep text e i fuel = some j →
      i ≤ j ∧ j + sep.length ≤ e ∧ isSepAt sep text j = true ∧
        ∀ m, i ≤ m → m < j → isSepAt sep text m = false
  | 0, i, j => by simp [findSepFrom]
  | fuel + 1, i, j => by
    intro h
    rw [findSepFrom] at h
    by_cases hle : i + sep.length ≤ e
    · rw [if_pos hle] at h
      by_cases hat : isSepAt sep text i
      · rw [if_pos hat] at h
        injection h with h
        subst h
        exact ⟨Nat.le_refl _, hle, hat, fun m h1 h2 => absurd (Nat.lt_of_le_of_lt h1 h2)
          (Nat.lt_irrefl _)⟩
      · rw [if_neg hat] at h
        obtain ⟨h1, h2, h3, h4⟩ := findSepFrom_some sep text e fuel (i + 1) j h
        refine ⟨by omega, h2, h3, fun m hm1 hm2 => ?_⟩
        rcases Nat.eq_or_lt_of_le hm1 with hm | hm
        · exact hm ▸ Bool.of_not_eq_true hat
        · exact h4 m hm hm2
    · rw [if_neg hle] at h
      exact absurd h (by simp)

/-- A failed scan with enough fuel means the separator does not occur in
`[i, e)`. -/
theorem findSepFrom_none (sep text : Chars) (e : Nat) (hsep : sep ≠ []) :
    ∀ fuel i, e - i ≤ fuel → findSepFrom sep text e i fuel = none →
      ∀ m, i ≤ m → m + sep.length ≤ e → isSepAt sep text m = false
  | 0, i, hfuel, _, m, hm1, hm2 => by
    have : 1 ≤ sep.length := List.length_pos_of_ne_nil hsep
    omega
  | fuel + 1, i, hfuel, h, m, hm1, hm2 => by
    rw [findSepFrom] at h
    by_cases hle : i + sep.length ≤ e
    · rw [if_pos hle] at h
      by_cases hat : isSepAt sep text i
      · rw [if_pos hat] at h
        exact absurd h (by simp)
      · rw [if_neg hat] at h
        rcases Nat.eq_or_lt_of_le hm1 with hm | hm
        · exact hm ▸ Bool.of_not_eq_true hat
        · exact findSepFrom_none sep text e hsep fuel (i + 1) (by omega) h m hm hm2
    · have : 1 ≤ sep.length := List.length_pos_of_ne_nil hsep
      omega

/-- A contiguous tiling starts no later than its right end. -/
theorem Contig.start_le (e : Nat) :
    ∀ (spans : List Span) (s : Nat), Contig e s spans → s ≤ e
  | [], s, h => Nat.le_of_eq h
  | (a, b) :: rest, s, h => by
    obtain ⟨_, h2, h3⟩ := h
    have := Contig.start_le e rest b h3
    omega

/-- Every span of a contiguous tiling of `[s, e)` is a nonempty sub-span of
`[s, e)`. -/
theorem Contig.mem_bounds (e : Nat) :
    ∀ (spans : List Span) (s : Nat), Contig e s spans →
      ∀ sp ∈ spans, s ≤ sp.1 ∧ sp.1 < sp.2 ∧ sp.2 ≤ e
  | [], _, _, sp, hsp => absurd hsp (List.not_mem_nil sp)
  | (a, b) :: rest, s, h, sp, hsp => by
    obtain ⟨h1, h2, h3⟩ := h
    rcases List.mem_cons.mp hsp with hsp | hsp
    · subst hsp
      have := Contig.start_le e rest b h3
      exact ⟨Nat.le_of_eq h1.symm, by omega, by omega⟩
    · have := Contig.mem_bounds e rest b h3 sp hsp
      omega

/-- Contiguous tilings concatenate. -/
theorem Contig.append (e m : Nat) :
    ∀ (l1 : List Span) (s : Nat), Contig m s l1 →
      ∀ l2, Contig e m l2 → Contig e s (l1 ++ l2)
  | [], s, h1, l2, h2 => by
    rw [List.nil_append]
    exact h1 ▸ h2
  | (a, b) :: rest, s, h1, l2, h2 => by
    obtain ⟨ha, hb, hrest⟩ := h1
    exact ⟨ha, hb, Contig.append e m rest b hrest l2 h2⟩

/-- `splitSpanGo` tiles `[s, e)` contiguously. -/
theorem splitSpanGo_contig (sep text : Chars) (e : Nat) (hsep : sep ≠ []) :
    ∀ fuel s, s ≤ e → e - s ≤ fuel →
      Contig e s (splitSpanGo sep text e s fuel)
  | 0, s, hse, hfuel => by
    have : s = e := by omega
    subst this
    exact rfl
  | fuel + 1, s, hse, hfuel => by
    rw [splitSpanGo]
    by_cases hlt : s < e
    · rw [if_pos hlt]
      match hfind : findSepFrom sep text e s (e - s) with
      | some i =>
        obtain ⟨h1, h2, _, _⟩ := findSepFrom_some sep text e (e - s) s i hfind
        have hL : 1 ≤ sep.length := List.length_pos_of_ne_nil hsep
        exact ⟨rfl, by omega,
          splitSpanGo_contig sep text e hsep fuel (i + sep.length) h2 (by omega)⟩
      | none => exact ⟨rfl, hlt, rfl⟩
    · rw [if_neg hlt]
      have : s = e := by omega
      subst this
      exact rfl

/-- In every piece produced by `splitSpanGo`, the separator occurs only at
the very end of the piece. -/
theorem splitSpanGo_sepEndOnly (sep text : Chars) (e : Nat) (hsep : sep ≠ []) :
    ∀ fuel s, e - s ≤ fuel →
      ∀ sp ∈ splitSpanGo sep text e s fuel, SepEndOnly text sep sp
  | 0, s, hfuel, sp, hsp => absurd hsp (List.not_mem_nil sp)
  | fuel + 1, s, hfuel, sp, hsp => by
    rw [splitSpanGo] at hsp
    by_cases hlt : s < e
    · rw [if_pos hlt] at hsp
      match hfind : findSepFrom sep text e s (e - s) with
      | some i =>
        rw [hfind] at hsp
        obtain ⟨h1, h2, h3, h4⟩ := findSepFrom_some sep text e (e - s) s i hfind
        have hL : 1 ≤ sep.length := List.length_pos_of_ne_nil hsep
        rcases List.mem_cons.mp hsp with hsp | hsp
        · subst hsp
          intro j hj1 hj2 hj3
          rcases Nat.lt_or_ge j i with hji | hji
          · exact absurd hj3 (by simp [h4 j hj1 hji])
          · omega
        · exact splitSpanGo_sepEndOnly sep text e hsep fuel (i + sep.length)
            (by omega) sp hsp
      | none =>
        rw [hfind] at hsp
        rcases List.mem_cons.mp hsp with hsp | hsp
        · subst hsp
          intro j hj1 hj2 hj3
          have := findSepFrom_none sep text e hsep (e - s) s (Nat.le_refl _)
            hfind j hj1 hj2
          exact absurd hj3 (by simp [this])
        · exact absurd hsp (List.not_mem_nil sp)
    · rw [if_neg hlt] at hsp
      exact absurd hsp (List.not_mem_nil sp)

/-- Indivisibility is inherited by sub-spans. -/
theorem SepEndOnly.subspan {text sep : Chars} {a0 b0 a b : Nat}
    (h : SepEndOnly text sep (a0, b0)) (ha : a0 ≤ a) (hb : b ≤ b0) :
    SepEndOnly text sep (a, b) := by
  intro j hj1 hj2 hj3
  have := h j (by omega) (by omega) hj3
  omega

/-- `splitStep` preserves contiguity. -/
theorem splitStep_contig (sep text : Chars) (size e : Nat) (hsep : sep ≠ []) :
    ∀ (spans : List Span) (s : Nat), Contig e s spans →
      Contig e s (splitStep sep text size spans)
  | [], s, h => h
  | (a, b) :: rest, s, h => by
    obtain ⟨ha, hb, hrest⟩ := h
    rw [splitStep]
    by_cases hsmall : b - a ≤ size
    · rw [if_pos hsmall, List.singleton_append]
      exact ⟨ha, hb, splitStep_contig sep text size e hsep rest b hrest⟩
    · rw [if_neg hsmall]
      have hpieces : Contig b a (splitSpan sep text a b) :=
        splitSpanGo_contig sep text b hsep (b - a) a (by omega) (Nat.le_refl _)
      exact ha ▸ Contig.append e b (splitSpan sep text a b) a hpieces _
        (splitStep_contig sep text size e hsep rest b hrest)

/-- Every span produced by `splitStep` is a sub-span of an input span. -/
theorem splitStep_subspan (sep text : Chars) (size e : Nat) (hsep : sep ≠ []) :
    ∀ (spans : List Span) (s : Nat), Contig e s spans →
      ∀ sp ∈ splitStep sep text size spans,
        ∃ sp0 ∈ spans, sp0.1 ≤ sp.1 ∧ sp.2 ≤ sp0.2
  | [], _, _, sp, hsp => absurd hsp (List.not_mem_nil sp)
  | (a, b) :: rest, s, h, sp, hsp => by
    obtain ⟨ha, hb, hrest⟩ := h
    rw [splitStep] at hsp
    rcases List.mem_append.mp hsp with hsp | hsp
    · by_cases hsmall : b - a ≤ size
      · rw [if_pos hsmall] at hsp
        rcases List.mem_singleton.mp hsp with rfl
        exact ⟨(a, b), List.mem_cons_self _ _, Nat.le_refl _, Nat.le_refl _⟩
      · rw [if_neg hsmall] at hsp
        have hpieces : Contig b a (splitSpan sep text a b) :=
          splitSpanGo_contig sep text b hsep (b - a) a (by omega) (Nat.le_refl _)
        have := Contig.mem_bounds b (splitSpan sep text a b) a hpieces sp hsp
        exact ⟨(a, b), List.mem_cons_self _ _, by omega, by omega⟩
    · obtain ⟨sp0, hsp0, hle⟩ :=
        splitStep_subspan sep text size e hsep rest b hrest sp hsp
      exact ⟨sp0, List.mem_cons_of_mem _ hsp0, hle⟩

/-- `splitStep` makes every oversized output span indivisible by the newly
applied separator and keeps it indivisible by previously applied ones. -/
theorem splitStep_good (sep text : Chars) (size e : Nat)
    (procSeps : List Chars) (hsep : sep ≠ []) :
    ∀ (spans : List Span) (s : Nat), Contig e s spans →
      GoodSpans text size procSeps spans →
      GoodSpans text size (sep :: procSeps) (splitStep sep text size spans)
  | [], _, _, _, sp, hsp => absurd hsp (List.not_mem_nil sp)
  | (a, b) :: rest, s, h, hgood, sp, hsp => by
    obtain ⟨ha, hb, hrest⟩ := h
    intro hover sep' hsep'
    rw [splitStep] at hsp
    rcases List.mem_append.mp hsp with hsp | hsp
    · by_cases hsmall : b - a ≤ size
      · rw [if_pos hsmall] at hsp
        rcases List.mem_singleton.mp hsp with rfl
        omega
      · rw [if_neg hsmall] at hsp
        rcases List.mem_cons.mp hsep' with hsep' | hsep'
        · exact hsep' ▸ splitSpanGo_sepEndOnly sep text b hsep (b - a) a
            (Nat.le_refl _) sp hsp
        · have hpieces : Contig b a (splitSpan sep text a b) :=
            splitSpanGo_contig sep text b hsep (b - a) a (by omega) (Nat.le_refl _)
          have hbounds := Contig.mem_bounds b (splitSpan sep text a b) a hpieces sp hsp
          have hparent : SepEndOnly text sep' (a, b) :=
            hgood (a, b) (List.mem_cons_self _ _) (by omega) sep' hsep'
          exact SepEndOnly.subspan hparent (by omega) (by omega)
    · exact splitStep_good sep text size e procSeps hsep rest b hrest
        (fun sp0 hsp0 => hgood sp0 (List.mem_cons_of_mem _ hsp0)) sp hsp hover
        sep' hsep'

/-- Weakening of `GoodSpans` along separator-list inclusion. -/
theorem GoodSpans.mono {text : Chars} {size : Nat} {l1 l2 : List Chars}
    {spans : List Span} (hsub : ∀ x ∈ l1, x ∈ l2)
    (h : GoodSpans text size l2 spans) : GoodSpans text size l1 spans :=
  fun sp hsp hover sep hsep => h sp hsp hover sep (hsub sep hsep)

/-- `splitAll` preserves contiguity. -/
theorem splitAll_contig (text : Chars) (size e : Nat) :
    ∀ (seps : List Chars), (∀ sep ∈ seps, sep ≠ []) →
      ∀ (spans : List Span) (s : Nat), Contig e s spans →
        Contig e s (splitAll text size seps spans)
  | [], _, _, _, h => h
  | sep :: more, hne, spans, s, h => by
    rw [splitAll]
    exact splitAll_contig text size e more
      (fun x hx => hne x (List.mem_cons_of_mem _ hx)) _ s
      (splitStep_contig sep text size e (hne sep (List.mem_cons_self _ _))
        spans s h)

/-- After `splitAll`, every oversized span is indivisible by every
separator applied (together with any previously established ones). -/
theorem splitAll_good (text : Chars) (size e : Nat) :
    ∀ (seps procSeps : List Chars), (∀ sep ∈ seps, sep ≠ []) →
      ∀ (spans : List Span) (s : Nat), Contig e s spans →
        GoodSpans text size procSeps spans →
        GoodSpans text size (seps ++ procSeps) (splitAll text size seps spans)
  | [], procSeps, _, spans, s, _, hgood => by
    rw [List.nil_append]
    exact hgood
  | sep :: more, procSeps, hne, spans, s, hcontig, hgood => by
    rw [splitAll]
    have hsep : sep ≠ [] := hne sep (List.mem_cons_self _ _)
    have hstep := splitStep_good sep text size e procSeps hsep spans s hcontig hgood
    have hrec := splitAll_good text size e more (sep :: procSeps)
      (fun x hx => hne x (List.mem_cons_of_mem _ hx)) _ s
      (splitStep_contig sep text size e hsep spans s hcontig) hstep
    refine GoodSpans.mono (fun x hx => ?_) hrec
    rcases (by simpa using hx : x = sep ∨ x ∈ more ∨ x ∈ procSeps) with
      h1 | h1 | h1
    · exact h1 ▸ List.mem_append_right more (List.mem_cons_self _ _)
    · exact List.mem_append_left _ h1
    · exact List.mem_append_right _ (List.mem_cons_of_mem _ h1)

/-- Invariants of the greedy packer: every produced chunk starts at or
after the current chunk start, ends within the text, is within `size`
unless it is a whole indivisible unit, chunks are ordered with positional
overlap at most `overlap`, and the first produced chunk starts at the
current start. -/
theorem packGo_spec (size overlap N : Nat) (allUnits : List Span) :
    ∀ (units : List Span) (cs ce : Nat), Contig N ce units →
      (∀ u ∈ units, u ∈ allUnits) → cs ≤ ce →
      (ce - cs ≤ size ∨ (cs, ce) ∈ allUnits) →
      (∀ sp ∈ packGo size overlap units cs ce,
        cs ≤ sp.1 ∧ ce ≤ sp.2 ∧ sp.1 ≤ sp.2 ∧ sp.2 ≤ N ∧
          (sp.2 - sp.1 ≤ size ∨ sp ∈ allUnits)) ∧
      List.Chain' (chunkOrd overlap) (packGo size overlap units cs ce) ∧
      ∃ z, (packGo size overlap units cs ce).head? = some (cs, z)
  | [], cs, ce, hcontig, _, hle, hP => by
    have hN : ce = N := hcontig
    subst hN
    refine ⟨?_, List.chain'_singleton _, ce, rfl⟩
    intro sp hsp
    rcases List.mem_singleton.mp hsp with rfl
    exact ⟨Nat.le_refl _, Nat.le_refl _, hle, Nat.le_refl _, hP⟩
  | (a, b) :: rest, cs, ce, hcontig, hsub, hle, hP => by
    obtain ⟨ha, hb, hrest⟩ := hcontig
    have hceN : ce ≤ N := by
      have := Contig.start_le N rest b hrest
      omega
    have hsub' : ∀ u ∈ rest, u ∈ allUnits :=
      fun u hu => hsub u (List.mem_cons_of_mem _ hu)
    by_cases hsm : b - cs ≤ size
    · rw [show packGo size overlap ((a, b) :: rest) cs ce =
          packGo size overlap rest cs b by simp [packGo, hsm]]
      obtain ⟨hmem, hchain, z, hz⟩ := packGo_spec size overlap N allUnits rest
        cs b hrest hsub' (by omega) (Or.inl hsm)
      refine ⟨?_, hchain, z, hz⟩
      intro sp hsp
      obtain ⟨m1, m2, m3, m4, m5⟩ := hmem sp hsp
      exact ⟨m1, by omega, m3, m4, m5⟩
    · rw [show packGo size overlap ((a, b) :: rest) cs ce =
          (cs, ce) :: packGo size overlap rest
            (ce - min (min overlap (size - (b - ce))) (ce - cs)) b by
        simp [packGo, hsm]]
      have hP' : b - (ce - min (min overlap (size - (b - ce))) (ce - cs)) ≤ size ∨
          (ce - min (min overlap (size - (b - ce))) (ce - cs), b) ∈ allUnits := by
        by_cases hbc : b - ce ≤ size
        · left
          omega
        · right
          have ho : min (min overlap (size - (b - ce))) (ce - cs) = 0 := by omega
          rw [ho, Nat.sub_zero, ← ha]
          exact hsub (a, b) (List.mem_cons_self _ _)
      obtain ⟨hmem, hchain, z, hz⟩ := packGo_spec size overlap N allUnits rest
        (ce - min (min overlap (size - (b - ce))) (ce - cs)) b hrest hsub'
        (by omega) hP'
      refine ⟨?_, ?_, ce, rfl⟩
      · intro sp hsp
        rcases List.mem_cons.mp hsp with rfl | hsp
        · exact ⟨Nat.le_refl _, Nat.le_refl _, hle, hceN, hP⟩
        · obtain ⟨m1, m2, m3, m4, m5⟩ := hmem sp hsp
          exact ⟨by omega, by omega, m3, m4, m5⟩
      · rw [List.chain'_cons']
        refine ⟨?_, hchain⟩
        intro y hy
        rw [hz, Option.mem_def, Option.some_inj] at hy
        subst hy
        have hzmem : (ce - min (min overlap (size - (b - ce))) (ce - cs), z) ∈
            packGo size overlap rest
              (ce - min (min overlap (size - (b - ce))) (ce - cs)) b := by
          have := List.mem_of_mem_head? (by rw [hz]; exact rfl :
            (ce - min (min overlap (size - (b - ce))) (ce - cs), z) ∈
              (packGo size overlap rest
                (ce - min (min overlap (size - (b - ce))) (ce - cs)) b).head?)
          exact this
        have := hmem _ hzmem
        unfold chunkOrd
        simp only []
        omega

/-- `pack` of a contiguous tiling of `[0, N)` produces well-formed ordered
chunks, each within `size` or a whole unit. -/
theorem pack_spec (size overlap N : Nat) (units : List Span)
    (hcontig : Contig N 0 units) (hN : 0 < N) :
    (∀ sp ∈ pack size overlap units,
      sp.1 ≤ sp.2 ∧ sp.2 ≤ N ∧ (sp.2 - sp.1 ≤ size ∨ sp ∈ units)) ∧
      List.Chain' (chunkOrd overlap) (pack size overlap units) := by
  match units, hcontig with
  | [], hcontig =>
    have : (0 : Nat) = N := hcontig
    omega
  | (a, b) :: rest, hcontig =>
    obtain ⟨ha, hb, hrest⟩ := hcontig
    obtain ⟨hmem, hchain, _⟩ := packGo_spec size overlap N ((a, b) :: rest) rest
      a b hrest (fun u hu => List.mem_cons_of_mem _ hu) (by omega)
      (Or.inr (List.mem_cons_self _ _))
    rw [show pack size overlap ((a, b) :: rest) = packGo size overlap rest a b
      from rfl]
    refine ⟨fun sp hsp => ?_, hchain⟩
    obtain ⟨_, _, m3, m4, m5⟩ := hmem sp hsp
    exact ⟨m3, m4, m5⟩

/-- `dropWhile` removes an initial segment. -/
theorem dropWhile_eq_drop (p : Char → Bool) :
    ∀ t : Chars, ∃ k, k ≤ t.length ∧ t.dropWhile p = t.drop k
  | [] => ⟨0, Nat.le_refl _, rfl⟩
  | c :: t => by
    by_cases hc : p c
    · obtain ⟨k, hk, hdrop⟩ := dropWhile_eq_drop p t
      exact ⟨k + 1, by simp; omega, by simp [List.dropWhile_cons, hc, hdrop]⟩
    · exact ⟨0, Nat.zero_le _, by simp [List.dropWhile_cons, hc]⟩

/-- The stripped string is the text of a sub-span of the original. -/
theorem pyStrip_eq_extractSpan (t : Chars) :
    ∃ s e, s ≤ e ∧ e ≤ t.length ∧ pyStrip t = extractSpan t (s, e) := by
  obtain ⟨k, hk, hdrop⟩ := dropWhile_eq_drop wsChar t
  obtain ⟨k2, hk2, hdrop2⟩ := dropWhile_eq_drop wsChar (t.drop k).reverse
  refine ⟨k, k + ((t.drop k).length - k2), by omega, ?_, ?_⟩
  · have := List.length_drop k t
    omega
  · rw [pyStrip, hdrop, hdrop2, List.drop_reverse, List.reverse_reverse,
      extractSpan]
    simp only []
    rw [Nat.add_sub_cancel_left]

/-- C4: every chunk produced by the chunker is a sub-span of the text whose
length is at most `chunk_size`, except when no separator of the priority
list can divide it (every separator occurrence, if any, sits at the very
end of the chunk, so the chunk is a smallest indivisible unit); chunks
appear in transcript order (monotone start and end positions) and
consecutive chunks share at most `chunk_overlap` positions of the
original text. -/
theorem claim_C4_chunk_size_order_overlap (text : Chars) (size overlap : Nat) :
    ∃ spans : List Span,
      chunkTexts text size overlap = spans.map (extractSpan text) ∧
      List.Chain' (chunkOrd overlap) spans ∧
      ∀ sp ∈ spans, sp.1 ≤ sp.2 ∧ sp.2 ≤ text.length ∧
        (extractSpan text sp).length = sp.2 - sp.1 ∧
        (sp.2 - sp.1 ≤ size ∨ ∀ sep ∈ separators, SepEndOnly text sep sp) := by
  by_cases h0 : text.length = 0
  · refine ⟨[], by simp [chunkTexts, h0], List.chain'_nil, by simp⟩
  · by_cases h1 : text.length ≤ size
    · obtain ⟨s, e, hse, het, hstrip⟩ := pyStrip_eq_extractSpan text
      refine ⟨[(s, e)], ?_, List.chain'_singleton _, ?_⟩
      · rw [show chunkTexts text size overlap = [pyStrip text] by
          simp [chunkTexts, h0, h1], hstrip]
        rfl
      · intro sp hsp
        rcases List.mem_singleton.mp hsp with rfl
        refine ⟨hse, het, ?_, Or.inl ?_⟩
        · simp only [extractSpan, List.length_take, List.length_drop]
          omega
        · have hlen := congrArg List.length hstrip
          simp only [extractSpan, List.length_take, List.length_drop] at hlen
          have : (pyStrip text).length ≤ text.length := by
            rw [pyStrip]
            simp only [List.length_reverse]
            calc ((text.dropWhile wsChar).reverse.dropWhile wsChar).length
                ≤ (text.dropWhile wsChar).reverse.length :=
                  (List.dropWhile_suffix wsChar).sublist.length_le
              _ = (text.dropWhile wsChar).length := List.length_reverse _
              _ ≤ text.length := (List.dropWhile_suffix wsChar).sublist.length_le
          omega
    · have hN : 0 < text.length := by omega
      have hsepne : ∀ sep ∈ separators, sep ≠ [] := by decide
      have hcontig0 : Contig text.length 0 [(0, text.length)] := ⟨rfl, hN, rfl⟩
      have hcontig := splitAll_contig text size text.length separators hsepne
        [(0, text.length)] 0 hcontig0
      have hgood0 : GoodSpans text size [] [(0, text.length)] :=
        fun sp _ _ sep hsep => absurd hsep (List.not_mem_nil sep)
      have hgood := splitAll_good text size text.length separators []
        hsepne [(0, text.length)] 0 hcontig0 hgood0
      rw [List.append_nil] at hgood
      obtain ⟨hmem, hchain⟩ := pack_spec size overlap text.length _ hcontig hN
      refine ⟨pack size overlap (splitAll text size separators [(0, text.length)]),
        by simp [chunkTexts, h0, h1], hchain, ?_⟩
      intro sp hsp
      obtain ⟨m1, m2, m3⟩ := hmem sp hsp
      refine ⟨m1, m2, ?_, ?_⟩
      · simp only [extractSpan, List.length_take, List.length_drop]
        omega
      · rcases m3 with m3 | m3
        · exact Or.inl m3
        · by_cases hsz : sp.2 - sp.1 ≤ size
          · exact Or.inl hsz
          · exact Or.inr (hgood sp m3 (by omega))

/-! ## Claim C1: retrieval top-k -/

/-- C1: for an index built from the chunk list, `query` returns exactly
`min k N` chunks: it is the image of the first `k` entries of the
score-sorted entry list, that list is sorted by descending score with ties
broken by original chunk position (earlier chunk first), it is a
permutation of all scored entries, every returned entry ranks at least as
high as every entry not returned, and a query against an empty index
returns an empty result. -/
theorem claim_C1_query_topk (embed : Chars → List Int) (chunks : List Chars)
    (queryText : Chars) (k : Nat) :
    (query embed (buildIndex embed chunks) queryText k).length =
        min k chunks.length ∧
      query embed (buildIndex embed chunks) queryText k =
        ((List.insertionSort rankRel
            (rankedList (buildIndex embed chunks) (embed queryText))).take k).map
          (fun t => t.2.2) ∧
      List.Sorted rankRel (List.insertionSort rankRel
        (rankedList (buildIndex embed chunks) (embed queryText))) ∧
      (List.insertionSort rankRel
          (rankedList (buildIndex embed chunks) (embed queryText))).Perm
        (rankedList (buildIndex embed chunks) (embed queryText)) ∧
      (∀ x ∈ (List.insertionSort rankRel
          (rankedList (buildIndex embed chunks) (embed queryText))).take k,
        ∀ y ∈ (List.insertionSort rankRel
          (rankedList (buildIndex embed chunks) (embed queryText))).drop k,
        rankRel x y) ∧
      (chunks = [] → query embed (buildIndex embed chunks) queryText k = []) := by
  refine ⟨?_, rfl, List.sorted_insertionSort rankRel _,
    List.perm_insertionSort rankRel _, ?_, ?_⟩
  · simp [query, rankedList, buildIndex, List.length_insertionSort,
      List.length_take]
  · have hsorted := List.sorted_insertionSort rankRel
      (rankedList (buildIndex embed chunks) (embed queryText))
    have hpw : List.Pairwise rankRel
        ((List.insertionSort rankRel
            (rankedList (buildIndex embed chunks) (embed queryText))).take k ++
          (List.insertionSort rankRel
            (rankedList (buildIndex embed chunks) (embed queryText))).drop k) := by
      rw [List.take_append_drop]
      exact hsorted
    exact (List.pairwise_append.mp hpw).2.2
  · intro h
    subst h
    simp [query, rankedList, buildIndex]

theorem claim_C1_query_topk_witness :
    query (fun t => [(t.length : Int)])
        (buildIndex (fun t => [(t.length : Int)]) []) (chars "q") 4 = [] ∧
      (query (fun t => [(t.length : Int)])
          (buildIndex (fun t => [(t.length : Int)])
            [chars "alpha", chars "bee"]) (chars "q") 1).length = min 1 2 :=
  ⟨(claim_C1_query_topk (fun t => [(t.length : Int)]) [] (chars "q")
      4).2.2.2.2.2 rfl,
    (claim_C1_query_topk (fun t => [(t.length : Int)])
      [chars "alpha", chars "bee"] (chars "q") 1).1⟩
